import Mathlib

/-!
Verification of the mongoose-edgeapi parameter-to-query compiler and its
surrounding handlers, as a shallow embedding of the JavaScript source
(`src/mongoose-edgeapi.js`).

JavaScript data reaching the compiler is JSON-shaped (strings, numbers,
booleans, null, nested objects and arrays) plus the `RegExp` objects the
modifier resolution creates internally.  Objects are modelled as
insertion-ordered association lists, matching the iteration order of
`_.each` (which snapshots `_.keys(obj)` before iterating).  Numbers are
modelled as integers; none of the verified code paths performs fractional
arithmetic on parameter values.

`buildQueryFromParams` mutates the object it is handed and returns it, so
the returned value is exactly the post-call state of the caller's object;
the embedding makes the state passing explicit.  The recursion of
`buildQueryFromParams` is not structural (the loop re-reads the current
value of each snapshot key, which an earlier modifier rewrite may have
replaced), so the embedding is indexed by a fuel parameter: every level of
the call tree consumes one unit, and exhaustion is reported as the
distinguished error `JsErr.outOfFuel`, which no theorem below confuses
with the genuine JavaScript `TypeError`.
-/

/-! ## JavaScript string helpers -/

/-- The characters replaced by `escapeRegExp`
(`/[\-\[\]\/\{\}\(\)\*\+\?\.\\\^\$\|]/g` in the source). -/
def regexSpecialChars : List Char :=
  ['-', '[', ']', '/', '\x7b', '\x7d', '(', ')', '*', '+', '?', '.', '\\', '^', '$', '|']

/-- Character-list version of `escapeRegExp`: prefix every regex special
character with a backslash (`'\\$&'` replacement). -/
def escapeChars : List Char → List Char
  | [] => []
  | c :: rest =>
      if c ∈ regexSpecialChars then '\\' :: c :: escapeChars rest
      else c :: escapeChars rest

/-- `escapeRegExp(str)` from the source: escape every regex special
character so the string can be used as a literal pattern. -/
def escapeRegExp (s : String) : String :=
  String.mk (escapeChars s.data)

/-- Interpret a regular-expression pattern that is supposed to match a
literal string: a backslash-escaped character stands for itself, any
unescaped regex special character means the pattern is not a plain
literal (it would anchor, repeat, group, ...), and any other character
stands for itself.  Returns the literal character sequence the pattern
matches, or `none` if the pattern contains unescaped special syntax. -/
def literalOfPattern : List Char → Option (List Char)
  | [] => some []
  | [c] => if c = '\\' ∨ c ∈ regexSpecialChars then none else some [c]
  | c :: d :: rest =>
      if c = '\\' then (literalOfPattern rest).map (fun l => d :: l)
      else if c ∈ regexSpecialChars then none
      else (literalOfPattern (d :: rest)).map (fun l => c :: l)

/-- `String.prototype.split(sep)` for a one-character separator, on
character lists: splitting never yields an empty list (splitting the
empty string yields `[""]`, as in JavaScript). -/
def splitChars (sep : Char) : List Char → List (List Char)
  | [] => [[]]
  | c :: rest =>
      let r := splitChars sep rest
      if c = sep then [] :: r
      else
        match r with
        | [] => [[c]]
        | h :: t => (c :: h) :: t

/-- `s.split(sep)` for a one-character separator. -/
def jsSplit (sep : Char) (s : String) : List String :=
  (splitChars sep s.data).map String.mk

/-- `Array.prototype.join('.')`. -/
def joinDot : List String → String
  | [] => ""
  | [x] => x
  | x :: rest => x ++ "." ++ joinDot rest

/-- The last dot-separated segment of a key
(`key.split('.')` followed by `.pop()` in the source). -/
def lastSeg (k : String) : String :=
  (jsSplit '.' k).getLastD ""

/-- The key with its last dot-separated segment removed
(`modifierKey.join('.')` after the `pop`). -/
def stripSeg (k : String) : String :=
  joinDot (jsSplit '.' k).dropLast

/-! ## The value model -/

mutual
/-- A JavaScript value as seen by the compiler: JSON scalars, `RegExp`
objects (produced by `processModifier`), objects and arrays. -/
inductive JsVal where
  | vStr (s : String)
  | vNum (n : Int)
  | vBool (b : Bool)
  | vNull
  | vRegex (pattern flags : String)
  | vObj (o : JsObj)
  | vArr (a : JsArr)
deriving DecidableEq

/-- A JavaScript object: an insertion-ordered list of key/value bindings.
Genuine JavaScript objects never bind the same key twice; `wfObj` below
captures that invariant. -/
inductive JsObj where
  | nil
  | cons (k : String) (v : JsVal) (rest : JsObj)
deriving DecidableEq

/-- A JavaScript array. -/
inductive JsArr where
  | anil
  | acons (v : JsVal) (rest : JsArr)
deriving DecidableEq
end

/-- `typeof value === 'object'`: true for objects, arrays, `RegExp`
objects and `null`, false for strings, numbers and booleans. -/
def jsTypeofObject : JsVal → Bool
  | .vObj _ => true
  | .vArr _ => true
  | .vRegex _ _ => true
  | .vNull => true
  | _ => false

/-- Property read `obj[key]` (`undefined` is `none`). -/
def objGet : JsObj → String → Option JsVal
  | .nil, _ => none
  | .cons k v rest, key => if k = key then some v else objGet rest key

/-- Property write `obj[key] = value`: overwrite the binding in place if
the key is present, otherwise append a new binding (JavaScript keeps
insertion order and does not move an existing key). -/
def objSet : JsObj → String → JsVal → JsObj
  | .nil, key, value => .cons key value .nil
  | .cons k v rest, key, value =>
      if k = key then .cons k value rest else .cons k v (objSet rest key value)

/-- Property removal `delete obj[key]`. -/
def objDelete : JsObj → String → JsObj
  | .nil, _ => .nil
  | .cons k v rest, key => if k = key then rest else .cons k v (objDelete rest key)

/-- `_.keys(obj)`: the snapshot of keys `_.each` iterates over. -/
def objKeys : JsObj → List String
  | .nil => []
  | .cons k _ rest => k :: objKeys rest

/-- Number of bindings in an object. -/
def objLength : JsObj → Nat
  | .nil => 0
  | .cons _ _ rest => objLength rest + 1

/-- A binding `(k, v)` occurs somewhere in the object's spine. -/
def spineMem : JsObj → String → JsVal → Prop
  | .nil, _, _ => False
  | .cons k v rest, key, value => (k = key ∧ v = value) ∨ spineMem rest key value

instance instDecidableSpineMem : ∀ (o : JsObj) (k : String) (v : JsVal), Decidable (spineMem o k v)
  | .nil, _, _ => isFalse (fun h => h)
  | .cons _ _ rest, k, v =>
      have : Decidable (spineMem rest k v) := instDecidableSpineMem rest k v
      inferInstanceAs (Decidable (_ ∨ _))

/-- `field = (context) ? [context, key].join('.') : key`. -/
def joinField (context k : String) : String :=
  if context = "" then k else context ++ "." ++ k

/-! ## Array stringification (for `new RegExp(array)` in the `regex`
modifier: JavaScript converts the array with `Array.prototype.join`) -/

mutual
/-- How `Array.prototype.join` renders one element: `null` and
`undefined` become the empty string, others use their `String(...)`
conversion. -/
def jsArrElemString : JsVal → String
  | .vNull => ""
  | .vStr s => s
  | .vNum n => toString n
  | .vBool b => if b then "true" else "false"
  | .vRegex p fl => "/" ++ p ++ "/" ++ fl
  | .vObj _ => "[object Object]"
  | .vArr a => jsArrJoin a

/-- `Array.prototype.join(',')`, the default `String(array)` conversion. -/
def jsArrJoin : JsArr → String
  | .anil => ""
  | .acons v .anil => jsArrElemString v
  | .acons v (.acons w rest) => jsArrElemString v ++ "," ++ jsArrJoin (.acons w rest)
end

/-! ## Configuration constants (the module-level `exports.config`) -/

/-- `config.queryOperatorIgnore`: JSON keys that are never discarded by
`buildQueryFromParams`, exactly as listed in the source (the list contains
several duplicates there; duplicates do not affect membership). -/
def queryOperatorIgnore : List String :=
  ["$addToSet", "$all", "$and", "$bit", "$box", "$center", "$centerSphere",
   "$comment", "$each", "$elemMatch (query)", "$exists", "$explain", "$geoIntersects",
   "$geoWithin", "$geometry", "$gt", "$gte", "$hint", "$in", "$inc", "$isolated", "$lt",
   "$lte", "$max", "$maxDistance", "$maxScan", "$min", "$mod", "$natural", "$ne", "$near",
   "$nearSphere", "$nin", "$nor", "$not", "$or", "$orderby", "$polygon", "$pop",
   "$pull", "$pullAll", "$push", "$pushAll", "$query", "$regex", "$rename",
   "$returnKey", "$set", "$setOnInsert", "$showDiskLoc", "$size", "$slice", "$snapshot",
   "$sort", "$type", "$uniqueDocs", "$unset", "$where",
   "$elemMatch", "$slice",
   "$add", "$addToSet", "$and", "$avg", "$cmp", "$concat", "$cond", "$dayOfMonth",
   "$dayOfWeek", "$dayOfYear", "$divide", "$eq", "$first", "$geoNear", "$group", "$gt",
   "$gte", "$hour", "$ifNull", "$last", "$limit", "$lt", "$lte", "$match", "$max",
   "$millisecond", "$min", "$minute", "$mod", "$month", "$multiply", "$ne", "$not",
   "$or", "$project", "$push", "$second", "$skip", "$sort", "$strcasecmp", "$substr",
   "$subtract", "$sum", "$toLower", "$toUpper", "$unwind", "$week", "$year"]

/-- `config.fieldModifiers`. -/
def fieldModifiers : List String := ["contains", "regex"]

/-- Errors surfaced by the embedding: `typeError` models a thrown
JavaScript `TypeError` (calling `.replace`/`.indexOf`/`.split` on a value
that lacks the method), `outOfFuel` is the fuel-exhaustion artefact of
the embedding. -/
inductive JsErr where
  | typeError
  | outOfFuel
deriving DecidableEq

/-- `value.indexOf('/') === 0` for a string value. -/
def startsWithSlash (s : String) : Bool :=
  match s.data with
  | c :: _ => c = '/'
  | [] => false

/-- The "pattern match" directive both modifiers produce:
`{ '$regex': new RegExp(pattern, flags) }`. -/
def directive (pattern flags : String) : JsVal :=
  .vObj (.cons "$regex" (.vRegex pattern flags) .nil)

/-- `config.processModifier(modifier, value)`.

* `contains`: `{ '$regex': new RegExp(escapeRegExp(value)) }`; a value
  without `.replace` (number, boolean, null, object, array, RegExp)
  makes `escapeRegExp` throw a `TypeError`.
* `regex`: if the value starts with `/` it is split on `/` into
  `/pattern/flags` (`flags = value[2] || ''`, `pattern = value[1]`);
  otherwise the whole value is the pattern with no flags.  A value
  without `.indexOf` throws; an array has `.indexOf`, and either throws
  at `.split` (when its first element is the string `"/"`) or is
  stringified by the `RegExp` constructor.
* any other modifier name falls through the `switch` and the value is
  returned unchanged. -/
def processModifier (modifier : String) (value : JsVal) : Except JsErr JsVal :=
  if modifier = "contains" then
    match value with
    | .vStr s => .ok (directive (escapeRegExp s) "")
    | _ => .error .typeError
  else if modifier = "regex" then
    match value with
    | .vStr s =>
        if startsWithSlash s then
          let parts := jsSplit '/' s
          .ok (directive (parts.getD 1 "") (parts.getD 2 ""))
        else
          .ok (directive s "")
    | .vArr (.acons (.vStr "/") _) => .error .typeError
    | .vArr a => .ok (directive (jsArrJoin a) "")
    | _ => .error .typeError
  else
    .ok value

/-! ## The query compiler

`config.buildQueryFromParams(params, fields, context)`, lines 221-262 of
the source.  The five functions correspond to: the function itself
(`buildQueryFromParams`), the `_.each` loop over the snapshot of keys
(`compileEach`), the body of the loop for one key (`compileStep`), the
part of the body after modifier resolution — the
`if (Number(key) === key) ... else if ('object' === typeof value) ...
else if (...) delete` chain (`compileTail`) — and the loop over an
array's elements (`compileArr`).

For an object's string keys `Number(key) !== key` always holds (a strict
comparison of a number against a string), so the modifier check runs for
every key and the `Number(key) === key` branch never fires; that branch
is the element-wise recursion over actual arrays, which `_.each` visits
with numeric indices, modelled by `compileArr`.

`field` is computed from the key as it was at the start of the
iteration; when modifier resolution replaces the key the source does not
recompute `field`, so the recursion after a modifier rewrite receives the
stale dotted path that still carries the modifier suffix. -/

mutual
def buildQueryFromParams : Nat → JsVal → List String → String → Except JsErr JsVal
  | 0, _, _, _ => .error .outOfFuel
  | fuel + 1, params, fields, context =>
      match params with
      | .vObj o => (compileEach fuel (objKeys o) o fields context).map JsVal.vObj
      | .vArr a => (compileArr fuel a fields context).map JsVal.vArr
      | v => .ok v

def compileEach : Nat → List String → JsObj → List String → String → Except JsErr JsObj
  | 0, _, _, _, _ => .error .outOfFuel
  | _ + 1, [], st, _, _ => .ok st
  | fuel + 1, key :: keys, st, fields, context =>
      match compileStep fuel st key fields context with
      | .error e => .error e
      | .ok st2 => compileEach fuel keys st2 fields context

def compileStep : Nat → JsObj → String → List String → String → Except JsErr JsObj
  | 0, _, _, _, _ => .error .outOfFuel
  | fuel + 1, st, key, fields, context =>
      let field := joinField context key
      match objGet st key with
      | none => .ok st
      | some value =>
          if lastSeg key ∈ fieldModifiers then
            match processModifier (lastSeg key) value with
            | .error e => .error e
            | .ok value2 =>
                let key2 := stripSeg key
                compileTail fuel (objSet (objDelete st key) key2 value2) key2 value2 field fields context
          else
            compileTail fuel st key value field fields context

def compileTail : Nat → JsObj → String → JsVal → String → List String → String → Except JsErr JsObj
  | 0, _, _, _, _, _, _ => .error .outOfFuel
  | fuel + 1, st, key, value, field, fields, context =>
      if jsTypeofObject value then
        if key ∈ queryOperatorIgnore then
          (buildQueryFromParams fuel value fields context).map (objSet st key)
        else
          (buildQueryFromParams fuel value fields field).map (objSet st key)
      else if field ∈ fields ∨ key ∈ queryOperatorIgnore then
        .ok st
      else
        .ok (objDelete st key)

def compileArr : Nat → JsArr → List String → String → Except JsErr JsArr
  | 0, _, _, _ => .error .outOfFuel
  | _ + 1, .anil, _, _ => .ok .anil
  | fuel + 1, .acons v rest, fields, context =>
      match buildQueryFromParams fuel v fields context with
      | .error e => .error e
      | .ok v2 => (compileArr fuel rest fields context).map (JsArr.acons v2)
end

/-! ## Analysis definitions

The definitions below are specification-side instruments used to state
and prove properties of `buildQueryFromParams`; they are not part of the
embedded source. -/

/-- The context used when recursing into the value bound to `key`:
an operator key keeps the current context, any other key extends it
(this matches the non-modifier path of the compiler, where the stale
`field` equals `joinField context key`). -/
def ctxFor (context k : String) : String :=
  if k ∈ queryOperatorIgnore then context else joinField context k

mutual
/-- The single-pass, modifier-free filtering transform: keep every
object-typed binding (recursively filtered under `ctxFor`), keep a
scalar binding exactly when its dotted field is whitelisted or its key
is an operator name, and drop it otherwise.  Every successful output of
`buildQueryFromParams` is a fixpoint of this transform. -/
def pureFilterVal : JsVal → List String → String → JsVal
  | .vObj o, fields, context => .vObj (pureFilterObj o fields context)
  | .vArr a, fields, context => .vArr (pureFilterArr a fields context)
  | v, _, _ => v

def pureFilterObj : JsObj → List String → String → JsObj
  | .nil, _, _ => .nil
  | .cons k v rest, fields, context =>
      if jsTypeofObject v then
        .cons k (pureFilterVal v fields (ctxFor context k)) (pureFilterObj rest fields context)
      else if joinField context k ∈ fields ∨ k ∈ queryOperatorIgnore then
        .cons k v (pureFilterObj rest fields context)
      else
        pureFilterObj rest fields context

def pureFilterArr : JsArr → List String → String → JsArr
  | .anil, _, _ => .anil
  | .acons v rest, fields, context =>
      .acons (pureFilterVal v fields context) (pureFilterArr rest fields context)
end

mutual
/-- Well-formedness: no object binds the same key twice (true of every
JavaScript object), recursively. -/
def wfVal : JsVal → Bool
  | .vObj o => wfObj o
  | .vArr a => wfArr a
  | _ => true

def wfObj : JsObj → Bool
  | .nil => true
  | .cons k v rest => !(objGet rest k).isSome && wfVal v && wfObj rest

def wfArr : JsArr → Bool
  | .anil => true
  | .acons v rest => wfVal v && wfArr rest
end

mutual
/-- Sanitized-ness: every binding whose value is not object-typed has a
whitelisted dotted field or an operator key, recursively (object-typed
bindings are checked in the context `ctxFor` extends to). -/
def sanitizedVal : JsVal → List String → String → Bool
  | .vObj o, fields, context => sanitizedObj o fields context
  | .vArr a, fields, context => sanitizedArr a fields context
  | _, _, _ => true

def sanitizedObj : JsObj → List String → String → Bool
  | .nil, _, _ => true
  | .cons k v rest, fields, context =>
      (if jsTypeofObject v then sanitizedVal v fields (ctxFor context k)
       else decide (joinField context k ∈ fields ∨ k ∈ queryOperatorIgnore))
      && sanitizedObj rest fields context

def sanitizedArr : JsArr → List String → String → Bool
  | .anil, _, _ => true
  | .acons v rest, fields, context =>
      sanitizedVal v fields context && sanitizedArr rest fields context
end

mutual
/-- No key anywhere in the value ends in a modifier segment, so the
modifier-resolution branch of the compiler never fires on it. -/
def modFreeVal : JsVal → Bool
  | .vObj o => modFreeObj o
  | .vArr a => modFreeArr a
  | _ => true

def modFreeObj : JsObj → Bool
  | .nil => true
  | .cons k v rest =>
      !decide (lastSeg k ∈ fieldModifiers) && modFreeVal v && modFreeObj rest

def modFreeArr : JsArr → Bool
  | .anil => true
  | .acons v rest => modFreeVal v && modFreeArr rest
end

mutual
/-- Fuel that always suffices to run the compiler on a well-formed,
modifier-free value (proved below). -/
def needVal : JsVal → Nat
  | .vObj o => needEntries o + 1
  | .vArr a => needElems a + 1
  | _ => 1

def needEntries : JsObj → Nat
  | .nil => 1
  | .cons _ v rest => needVal v + needEntries rest + 4

def needElems : JsArr → Nat
  | .anil => 1
  | .acons v rest => needVal v + needElems rest + 1
end

/-- Fuel requirement of a single key lookup during the loop. -/
def needValOpt : Option JsVal → Nat
  | none => 0
  | some v => needVal v

/-- Fuel that suffices for the `_.each` loop over snapshot `ks` against
state `st`, assuming the state never changes (which is the case on
already-compiled, modifier-free input). -/
def needKs : List String → JsObj → Nat
  | [], _ => 1
  | k :: ks, st => needValOpt (objGet st k) + needKs ks st + 4

/-! ## Spine lemmas for object operations -/

theorem wfObj_cons_iff (k : String) (v : JsVal) (rest : JsObj) :
    wfObj (.cons k v rest) = true ↔
      objGet rest k = none ∧ wfVal v = true ∧ wfObj rest = true := by
  cases h : objGet rest k <;>
    simp [wfObj, h, Bool.and_eq_true, and_assoc]

theorem spineMem_of_objGet : ∀ (o : JsObj) (k : String) (v : JsVal),
    objGet o k = some v → spineMem o k v
  | .nil, _, _, h => by simp [objGet] at h
  | .cons k' v' rest, k, v, h => by
      by_cases hk : k' = k
      · simp [objGet, hk] at h
        exact Or.inl ⟨hk, h⟩
      · simp [objGet, hk] at h
        exact Or.inr (spineMem_of_objGet rest k v h)

theorem objGet_of_spineMem_wf : ∀ (o : JsObj) (k : String) (v : JsVal),
    wfObj o = true → spineMem o k v → objGet o k = some v
  | .nil, _, _, _, h => h.elim
  | .cons k' v' rest, k, v, hwf, h => by
      rcases (wfObj_cons_iff k' v' rest).1 hwf with ⟨hnone, _, hrest⟩
      rcases h with ⟨rfl, rfl⟩ | h
      · simp [objGet]
      · have hne : k' ≠ k := by
          rintro rfl
          have := objGet_of_spineMem_wf rest k' v hrest h
          rw [hnone] at this
          exact Option.noConfusion this
        simpa [objGet, hne] using objGet_of_spineMem_wf rest k v hrest h

theorem objGet_objSet_ne : ∀ (o : JsObj) (k k' : String) (v : JsVal),
    k' ≠ k → objGet (objSet o k v) k' = objGet o k'
  | .nil, k, k', v, h => by simp [objGet, objSet, Ne.symm h]
  | .cons k0 v0 rest, k, k', v, h => by
      by_cases hk : k0 = k
      · subst hk
        simp [objSet, objGet, Ne.symm h]
      · simp only [objSet, if_neg hk, objGet]
        by_cases hk' : k0 = k'
        · simp [hk']
        · simp [hk', objGet_objSet_ne rest k k' v h]

theorem objGet_objDelete_ne : ∀ (o : JsObj) (k k' : String),
    k' ≠ k → objGet (objDelete o k) k' = objGet o k'
  | .nil, _, _, _ => rfl
  | .cons k0 v0 rest, k, k', h => by
      by_cases hk : k0 = k
      · subst hk
        simp [objDelete, objGet, Ne.symm h]
      · simp only [objDelete, if_neg hk, objGet]
        by_cases hk' : k0 = k'
        · simp [hk']
        · simp [hk', objGet_objDelete_ne rest k k' h]

theorem wfObj_objSet : ∀ (o : JsObj) (k : String) (v : JsVal),
    wfObj o = true → wfVal v = true → wfObj (objSet o k v) = true
  | .nil, k, v, _, hv => by
      simp [objSet, wfObj_cons_iff, hv, objGet, wfObj]
  | .cons k0 v0 rest, k, v, hwf, hv => by
      rcases (wfObj_cons_iff k0 v0 rest).1 hwf with ⟨hnone, hv0, hrest⟩
      by_cases hk : k0 = k
      · subst hk
        simp only [objSet, if_pos rfl]
        exact (wfObj_cons_iff _ _ _).2 ⟨hnone, hv, hrest⟩
      · simp only [objSet, if_neg hk]
        refine (wfObj_cons_iff _ _ _).2 ⟨?_, hv0, wfObj_objSet rest k v hrest hv⟩
        rw [objGet_objSet_ne rest k k0 v hk]
        exact hnone

theorem wfObj_objDelete : ∀ (o : JsObj) (k : String),
    wfObj o = true → wfObj (objDelete o k) = true
  | .nil, _, _ => rfl
  | .cons k0 v0 rest, k, hwf => by
      rcases (wfObj_cons_iff k0 v0 rest).1 hwf with ⟨hnone, hv0, hrest⟩
      by_cases hk : k0 = k
      · subst hk
        simpa [objDelete] using hrest
      · simp only [objDelete, if_neg hk]
        refine (wfObj_cons_iff _ _ _).2 ⟨?_, hv0, wfObj_objDelete rest k hrest⟩
        rw [objGet_objDelete_ne rest k k0 hk]
        exact hnone

theorem spineMem_objSet : ∀ (o : JsObj) (k : String) (v : JsVal) (k' : String) (v' : JsVal),
    spineMem (objSet o k v) k' v' → (k' = k ∧ v' = v) ∨ spineMem o k' v'
  | .nil, k, v, k', v', h => by
      rcases h with ⟨h1, h2⟩ | h
      · exact Or.inl ⟨h1.symm, h2.symm⟩
      · exact h.elim
  | .cons k0 v0 rest, k, v, k', v', h => by
      by_cases hk : k0 = k
      · subst hk
        simp only [objSet, if_pos rfl] at h
        rcases h with ⟨h1, h2⟩ | h
        · exact Or.inl ⟨h1.symm, h2.symm⟩
        · exact Or.inr (Or.inr h)
      · simp only [objSet, if_neg hk] at h
        rcases h with ⟨h1, h2⟩ | h
        · exact Or.inr (Or.inl ⟨h1, h2⟩)
        · rcases spineMem_objSet rest k v k' v' h with h | h
          · exact Or.inl h
          · exact Or.inr (Or.inr h)

theorem spineMem_objSet_self_wf : ∀ (o : JsObj) (k : String) (v v' : JsVal),
    wfObj o = true → spineMem (objSet o k v) k v' → v' = v
  | .nil, k, v, v', _, h => by
      rcases h with ⟨_, h2⟩ | h
      · exact h2.symm
      · exact h.elim
  | .cons k0 v0 rest, k, v, v', hwf, h => by
      rcases (wfObj_cons_iff k0 v0 rest).1 hwf with ⟨hnone, _, hrest⟩
      by_cases hk : k0 = k
      · subst hk
        simp only [objSet, if_pos rfl] at h
        rcases h with ⟨_, h2⟩ | h
        · exact h2.symm
        · exact absurd (objGet_of_spineMem_wf rest k0 v' hrest h)
            (by simp [hnone])
      · simp only [objSet, if_neg hk] at h
        rcases h with ⟨h1, _⟩ | h
        · exact absurd h1 hk
        · exact spineMem_objSet_self_wf rest k v v' hrest h

theorem spineMem_objDelete : ∀ (o : JsObj) (k : String) (k' : String) (v' : JsVal),
    spineMem (objDelete o k) k' v' → spineMem o k' v'
  | .nil, _, _, _, h => h.elim
  | .cons k0 v0 rest, k, k', v', h => by
      by_cases hk : k0 = k
      · subst hk
        simp only [objDelete, if_pos rfl] at h
        exact Or.inr h
      · simp only [objDelete, if_neg hk] at h
        rcases h with h | h
        · exact Or.inl h
        · exact Or.inr (spineMem_objDelete rest k k' v' h)

theorem not_spineMem_objDelete_self : ∀ (o : JsObj) (k : String) (v' : JsVal),
    wfObj o = true → ¬ spineMem (objDelete o k) k v'
  | .nil, _, _, _ => fun h => h.elim
  | .cons k0 v0 rest, k, v', hwf => by
      rcases (wfObj_cons_iff k0 v0 rest).1 hwf with ⟨hnone, _, hrest⟩
      by_cases hk : k0 = k
      · subst hk
        simp only [objDelete, if_pos rfl]
        intro h
        exact absurd (objGet_of_spineMem_wf rest k0 v' hrest h) (by simp [hnone])
      · simp only [objDelete, if_neg hk]
        rintro (⟨h1, _⟩ | h)
        · exact hk h1
        · exact not_spineMem_objDelete_self rest k v' hrest h

theorem objSet_self : ∀ (o : JsObj) (k : String) (v : JsVal),
    objGet o k = some v → objSet o k v = o
  | .nil, k, v, h => by simp [objGet] at h
  | .cons k0 v0 rest, k, v, h => by
      by_cases hk : k0 = k
      · simp [objGet, hk] at h
        simp [objSet, hk, h]
      · simp [objGet, hk] at h
        simp [objSet, hk, objSet_self rest k v h]

/-! ## The modifier directive -/

theorem jsTypeofObject_directive (p fl : String) :
    jsTypeofObject (directive p fl) = true := rfl

theorem wfVal_directive (p fl : String) : wfVal (directive p fl) = true := rfl

theorem modFreeVal_directive (p fl : String) : modFreeVal (directive p fl) = true := rfl

theorem pureFilterVal_directive (p fl : String) (fields : List String) (ctx : String) :
    pureFilterVal (directive p fl) fields ctx = directive p fl := rfl

theorem sanitizedVal_directive (p fl : String) (fields : List String) (ctx : String) :
    sanitizedVal (directive p fl) fields ctx = true := rfl

/-- Both modifiers, whenever they return without throwing, return a
pattern-match directive. -/
theorem processModifier_ok_directive (m : String) (v : JsVal) (v2 : JsVal)
    (hm : m ∈ fieldModifiers) (h : processModifier m v = .ok v2) :
    ∃ p fl, v2 = directive p fl := by
  have hm' : m = "contains" ∨ m = "regex" := by simpa [fieldModifiers] using hm
  rcases hm' with rfl | rfl
  · cases v <;> simp [processModifier] at h <;> exact ⟨_, _, h.symm⟩
  · cases v with
    | vStr s =>
        by_cases hs : startsWithSlash s = true <;>
          simp [processModifier, hs] at h <;> exact ⟨_, _, h.symm⟩
    | vArr a =>
        cases a with
        | anil => simp [processModifier] at h; exact ⟨_, _, h.symm⟩
        | acons w rest =>
            cases w <;> simp [processModifier] at h
            case vStr s =>
              by_cases hs : s = "/"
              · subst hs; simp [processModifier] at h
              · simp [processModifier, hs] at h; exact ⟨_, _, h.symm⟩
            all_goals exact ⟨_, _, h.symm⟩
    | _ => simp [processModifier] at h

/-- Running the compiler on a directive returns it unchanged (its only
key is `$regex`, which is in the operator ignore list, and its value is
a `RegExp` object, which the recursion returns unchanged). -/
theorem buildQueryFromParams_directive (f : Nat) (p fl : String)
    (fields : List String) (ctx : String) :
    buildQueryFromParams (f + 5) (directive p fl) fields ctx = .ok (directive p fl) := rfl

theorem directive_compile_id (f : Nat) (p fl : String) (fields : List String)
    (ctx : String) (r : JsVal)
    (h : buildQueryFromParams f (directive p fl) fields ctx = .ok r) :
    r = directive p fl := by
  match f with
  | 0 => exact Except.noConfusion h
  | 1 => exact Except.noConfusion h
  | 2 => exact Except.noConfusion h
  | 3 => exact Except.noConfusion h
  | 4 => exact Except.noConfusion h
  | f + 5 =>
      rw [buildQueryFromParams_directive f p fl fields ctx] at h
      exact (Except.ok.inj h).symm

/-! ## Properties of the single-pass filter -/

theorem pureFilterObj_length : ∀ (o : JsObj) (fields : List String) (ctx : String),
    objLength (pureFilterObj o fields ctx) ≤ objLength o
  | .nil, _, _ => Nat.le_refl _
  | .cons k v rest, fields, ctx => by
      by_cases hty : jsTypeofObject v = true
      · simp only [pureFilterObj, if_pos hty, objLength]
        exact Nat.succ_le_succ (pureFilterObj_length rest fields ctx)
      · simp only [pureFilterObj, if_neg hty]
        by_cases hc : joinField ctx k ∈ fields ∨ k ∈ queryOperatorIgnore
        · simp only [if_pos hc, objLength]
          exact Nat.succ_le_succ (pureFilterObj_length rest fields ctx)
        · simp only [if_neg hc, objLength]
          exact Nat.le_succ_of_le (pureFilterObj_length rest fields ctx)

/-- An entry of an already-filtered object: a scalar binding passed the
whitelist-or-operator check, an object-typed binding is itself a
fixpoint of the filter in its extended context. -/
def finishedEntry (fields : List String) (context k : String) (v : JsVal) : Prop :=
  (jsTypeofObject v = false → joinField context k ∈ fields ∨ k ∈ queryOperatorIgnore) ∧
  (jsTypeofObject v = true → pureFilterVal v fields (ctxFor context k) = v)

theorem finishedEntry_directive (fields : List String) (context k : String) (p fl : String) :
    finishedEntry fields context k (directive p fl) :=
  ⟨fun h => by simp [jsTypeofObject_directive] at h,
   fun _ => pureFilterVal_directive p fl fields (ctxFor context k)⟩

/-- A fixpoint of the filter has only finished entries. -/
theorem pureFilterObj_fix_entries : ∀ (o : JsObj) (fields : List String) (ctx : String),
    pureFilterObj o fields ctx = o →
    ∀ (k : String) (v : JsVal), spineMem o k v → finishedEntry fields ctx k v
  | .nil, _, _, _, _, _, h => h.elim
  | .cons k0 v0 rest, fields, ctx, hfix, k, v, hmem => by
      by_cases hty : jsTypeofObject v0 = true
      · simp only [pureFilterObj, if_pos hty] at hfix
        have h1 : pureFilterVal v0 fields (ctxFor ctx k0) = v0 := by
          have := congrArg (fun o => match o with
            | JsObj.cons _ w _ => w
            | JsObj.nil => JsVal.vNull) hfix
          simpa using this
        have h2 : pureFilterObj rest fields ctx = rest := by
          have := congrArg (fun o => match o with
            | JsObj.cons _ _ r => r
            | JsObj.nil => JsObj.nil) hfix
          simpa using this
        rcases hmem with ⟨rfl, rfl⟩ | hmem
        · exact ⟨fun hf => by rw [hty] at hf; exact Bool.noConfusion hf, fun _ => h1⟩
        · exact pureFilterObj_fix_entries rest fields ctx h2 k v hmem
      · simp only [pureFilterObj, if_neg hty] at hfix
        by_cases hc : joinField ctx k0 ∈ fields ∨ k0 ∈ queryOperatorIgnore
        · simp only [if_pos hc] at hfix
          have h2 : pureFilterObj rest fields ctx = rest := by
            have := congrArg (fun o => match o with
              | JsObj.cons _ _ r => r
              | JsObj.nil => JsObj.nil) hfix
            simpa using this
          rcases hmem with ⟨rfl, rfl⟩ | hmem
          · exact ⟨fun _ => hc, fun ht => absurd ht (by simp [hty])⟩
          · exact pureFilterObj_fix_entries rest fields ctx h2 k v hmem
        · simp only [if_neg hc] at hfix
          exfalso
          have hlen := pureFilterObj_length rest fields ctx
          rw [hfix] at hlen
          simp [objLength] at hlen
  termination_by o => o

/-- Conversely, an object all of whose entries are finished is a
fixpoint of the filter. -/
theorem entries_finished_fix : ∀ (o : JsObj) (fields : List String) (ctx : String),
    (∀ (k : String) (v : JsVal), spineMem o k v → finishedEntry fields ctx k v) →
    pureFilterObj o fields ctx = o
  | .nil, _, _, _ => rfl
  | .cons k0 v0 rest, fields, ctx, h => by
      have h0 := h k0 v0 (Or.inl ⟨rfl, rfl⟩)
      have hrest := entries_finished_fix rest fields ctx
        (fun k v hm => h k v (Or.inr hm))
      by_cases hty : jsTypeofObject v0 = true
      · simp only [pureFilterObj, if_pos hty]
        rw [hrest, h0.2 hty]
      · simp only [pureFilterObj, if_neg hty,
          if_pos (h0.1 (by simpa using hty))]
        rw [hrest]

theorem pureFilterObj_cons_split (k0 : String) (v0 : JsVal) (rest : JsObj)
    (fields : List String) (ctx : String)
    (hfix : pureFilterObj (.cons k0 v0 rest) fields ctx = .cons k0 v0 rest) :
    (jsTypeofObject v0 = true →
      pureFilterVal v0 fields (ctxFor ctx k0) = v0 ∧ pureFilterObj rest fields ctx = rest) ∧
    (jsTypeofObject v0 = false →
      (joinField ctx k0 ∈ fields ∨ k0 ∈ queryOperatorIgnore) ∧
      pureFilterObj rest fields ctx = rest) := by
  constructor
  · intro hty
    simp only [pureFilterObj, if_pos hty, JsObj.cons.injEq] at hfix
    exact ⟨hfix.2.1, hfix.2.2⟩
  · intro hty
    have hty' : ¬ jsTypeofObject v0 = true := by simp [hty]
    by_cases hc : joinField ctx k0 ∈ fields ∨ k0 ∈ queryOperatorIgnore
    · simp only [pureFilterObj, if_neg hty', if_pos hc, JsObj.cons.injEq] at hfix
      exact ⟨hc, hfix.2.2⟩
    · exfalso
      simp only [pureFilterObj, if_neg hty', if_neg hc] at hfix
      have hlen := pureFilterObj_length rest fields ctx
      rw [hfix] at hlen
      simp [objLength] at hlen

mutual
theorem fix_sanitizedVal : ∀ (v : JsVal) (fields : List String) (ctx : String),
    pureFilterVal v fields ctx = v → sanitizedVal v fields ctx = true
  | .vObj o, fields, ctx, h => by
      simp only [pureFilterVal, JsVal.vObj.injEq] at h
      simpa [sanitizedVal] using fix_sanitizedObj o fields ctx h
  | .vArr a, fields, ctx, h => by
      simp only [pureFilterVal, JsVal.vArr.injEq] at h
      simpa [sanitizedVal] using fix_sanitizedArr a fields ctx h
  | .vStr _, _, _, _ => rfl
  | .vNum _, _, _, _ => rfl
  | .vBool _, _, _, _ => rfl
  | .vNull, _, _, _ => rfl
  | .vRegex _ _, _, _, _ => rfl

theorem fix_sanitizedObj : ∀ (o : JsObj) (fields : List String) (ctx : String),
    pureFilterObj o fields ctx = o → sanitizedObj o fields ctx = true
  | .nil, _, _, _ => rfl
  | .cons k0 v0 rest, fields, ctx, hfix => by
      have hs := pureFilterObj_cons_split k0 v0 rest fields ctx hfix
      by_cases hty : jsTypeofObject v0 = true
      · rcases hs.1 hty with ⟨h1, h2⟩
        simp only [sanitizedObj, if_pos hty, Bool.and_eq_true]
        exact ⟨fix_sanitizedVal v0 fields (ctxFor ctx k0) h1,
          fix_sanitizedObj rest fields ctx h2⟩
      · rcases hs.2 (by simpa using hty) with ⟨hc, h2⟩
        simp only [sanitizedObj, if_neg hty, Bool.and_eq_true]
        exact ⟨by simpa using hc, fix_sanitizedObj rest fields ctx h2⟩

theorem fix_sanitizedArr : ∀ (a : JsArr) (fields : List String) (ctx : String),
    pureFilterArr a fields ctx = a → sanitizedArr a fields ctx = true
  | .anil, _, _, _ => rfl
  | .acons v rest, fields, ctx, hfix => by
      simp only [pureFilterArr, JsArr.acons.injEq] at hfix
      simp only [sanitizedArr, Bool.and_eq_true]
      exact ⟨fix_sanitizedVal v fields ctx hfix.1,
        fix_sanitizedArr rest fields ctx hfix.2⟩
end

/-! ## Helper lemmas for the master invariant -/

theorem wfVal_of_objGet : ∀ (o : JsObj) (k : String) (v : JsVal),
    wfObj o = true → objGet o k = some v → wfVal v = true
  | .nil, _, _, _, h => by simp [objGet] at h
  | .cons k0 v0 rest, k, v, hwf, h => by
      rcases (wfObj_cons_iff k0 v0 rest).1 hwf with ⟨_, hv0, hrest⟩
      by_cases hk : k0 = k
      · simp [objGet, hk] at h
        exact h ▸ hv0
      · simp [objGet, hk] at h
        exact wfVal_of_objGet rest k v hrest h

theorem objGet_isSome_of_spineMem : ∀ (o : JsObj) (k : String) (v : JsVal),
    spineMem o k v → (objGet o k).isSome = true
  | .nil, _, _, h => h.elim
  | .cons k0 v0 rest, k, v, h => by
      rcases h with ⟨rfl, _⟩ | h
      · simp [objGet]
      · by_cases hk : k0 = k
        · simp [objGet, hk]
        · simp [objGet, hk]
          exact objGet_isSome_of_spineMem rest k v h

theorem mem_objKeys_of_spineMem : ∀ (o : JsObj) (k : String) (v : JsVal),
    spineMem o k v → k ∈ objKeys o
  | .nil, _, _, h => h.elim
  | .cons k0 v0 rest, k, v, h => by
      rcases h with ⟨rfl, _⟩ | h
      · simp [objKeys]
      · simp [objKeys]
        exact Or.inr (mem_objKeys_of_spineMem rest k v h)

/-- The compiler preserves `typeof value === 'object'`. -/
theorem buildQueryFromParams_typeof (g : Nat) (v : JsVal) (fields : List String)
    (ctx : String) (r : JsVal) (hty : jsTypeofObject v = true)
    (h : buildQueryFromParams g v fields ctx = .ok r) :
    jsTypeofObject r = true := by
  match g with
  | 0 => exact Except.noConfusion h
  | g + 1 =>
      cases v with
      | vObj o =>
          simp only [buildQueryFromParams] at h
          cases he : compileEach g (objKeys o) o fields ctx with
          | error e => rw [he] at h; exact Except.noConfusion h
          | ok o2 =>
              rw [he] at h
              simp only [Except.map] at h
              cases h
              rfl
      | vArr a =>
          simp only [buildQueryFromParams] at h
          cases he : compileArr g a fields ctx with
          | error e => rw [he] at h; exact Except.noConfusion h
          | ok a2 =>
              rw [he] at h
              simp only [Except.map] at h
              cases h
              rfl
      | vRegex p fl => simp only [buildQueryFromParams] at h; cases h; rfl
      | vNull => simp only [buildQueryFromParams] at h; cases h; rfl
      | vStr s => simp [jsTypeofObject] at hty
      | vNum n => simp [jsTypeofObject] at hty
      | vBool b => simp [jsTypeofObject] at hty

/-! ## The master invariant: every successful run of the compiler
produces a well-formed fixpoint of the single-pass filter -/

def MvalP (f : Nat) : Prop :=
  ∀ (v : JsVal) (fields : List String) (ctx : String) (r : JsVal),
    wfVal v = true → buildQueryFromParams f v fields ctx = .ok r →
    wfVal r = true ∧ pureFilterVal r fields ctx = r

def MeachP (f : Nat) : Prop :=
  ∀ (ks : List String) (st : JsObj) (fields : List String) (ctx : String) (st' : JsObj),
    wfObj st = true →
    (∀ k v, spineMem st k v → k ∉ ks → finishedEntry fields ctx k v) →
    compileEach f ks st fields ctx = .ok st' →
    wfObj st' = true ∧ ∀ k v, spineMem st' k v → finishedEntry fields ctx k v

def MstepP (f : Nat) : Prop :=
  ∀ (st : JsObj) (key : String) (fields : List String) (ctx : String) (st' : JsObj),
    wfObj st = true →
    compileStep f st key fields ctx = .ok st' →
    wfObj st' = true ∧ ∀ k' v', spineMem st' k' v' →
      (spineMem st k' v' ∧ k' ≠ key) ∨ finishedEntry fields ctx k' v'

def MtailP (f : Nat) : Prop :=
  ∀ (st : JsObj) (key : String) (value : JsVal) (field : String)
    (fields : List String) (ctx : String) (st' : JsObj),
    wfObj st = true → wfVal value = true →
    compileTail f st key value field fields ctx = .ok st' →
    wfObj st' = true ∧
    ((jsTypeofObject value = true ∧
        ∃ r g, buildQueryFromParams g value fields
            (if key ∈ queryOperatorIgnore then ctx else field) = .ok r ∧
          wfVal r = true ∧
          pureFilterVal r fields (if key ∈ queryOperatorIgnore then ctx else field) = r ∧
          st' = objSet st key r) ∨
      (jsTypeofObject value = false ∧ (field ∈ fields ∨ key ∈ queryOperatorIgnore) ∧ st' = st) ∨
      (jsTypeofObject value = false ∧ st' = objDelete st key))

def MarrP (f : Nat) : Prop :=
  ∀ (a : JsArr) (fields : List String) (ctx : String) (r : JsArr),
    wfArr a = true → compileArr f a fields ctx = .ok r →
    wfArr r = true ∧ pureFilterArr r fields ctx = r

theorem master_tail_step (f : Nat) (ihval : MvalP f) : MtailP (f + 1) := by
  intro st key value field fields ctx st' hwf hwv h
  simp only [compileTail] at h
  by_cases hty : jsTypeofObject value = true
  · rw [if_pos hty] at h
    by_cases hop : key ∈ queryOperatorIgnore
    · rw [if_pos hop] at h
      cases hbq : buildQueryFromParams f value fields ctx with
      | error e => rw [hbq] at h; exact Except.noConfusion h
      | ok r =>
          rw [hbq] at h
          simp only [Except.map] at h
          have hst' := Except.ok.inj h
          subst hst'
          obtain ⟨hwr, hfix⟩ := ihval value fields ctx r hwv hbq
          refine ⟨wfObj_objSet st key r hwf hwr, Or.inl ⟨hty, r, f, ?_, hwr, ?_, rfl⟩⟩
          · rw [if_pos hop]; exact hbq
          · rw [if_pos hop]; exact hfix
    · rw [if_neg hop] at h
      cases hbq : buildQueryFromParams f value fields field with
      | error e => rw [hbq] at h; exact Except.noConfusion h
      | ok r =>
          rw [hbq] at h
          simp only [Except.map] at h
          have hst' := Except.ok.inj h
          subst hst'
          obtain ⟨hwr, hfix⟩ := ihval value fields field r hwv hbq
          refine ⟨wfObj_objSet st key r hwf hwr, Or.inl ⟨hty, r, f, ?_, hwr, ?_, rfl⟩⟩
          · rw [if_neg hop]; exact hbq
          · rw [if_neg hop]; exact hfix
  · rw [if_neg hty] at h
    by_cases hc : field ∈ fields ∨ key ∈ queryOperatorIgnore
    · rw [if_pos hc] at h
      have hst' := Except.ok.inj h
      subst hst'
      exact ⟨hwf, Or.inr (Or.inl ⟨by simpa using hty, hc, rfl⟩)⟩
    · rw [if_neg hc] at h
      have hst' := Except.ok.inj h
      subst hst'
      exact ⟨wfObj_objDelete st key hwf, Or.inr (Or.inr ⟨by simpa using hty, rfl⟩)⟩

theorem master_step_step (f : Nat) (ihtail : MtailP f) : MstepP (f + 1) := by
  intro st key fields ctx st' hwf h
  simp only [compileStep] at h
  cases hget : objGet st key with
  | none =>
      rw [hget] at h
      simp only at h
      have hst' := Except.ok.inj h
      subst hst'
      refine ⟨hwf, fun k' v' hm => Or.inl ⟨hm, ?_⟩⟩
      rintro rfl
      have hs := objGet_isSome_of_spineMem _ _ _ hm
      rw [hget] at hs
      exact Bool.noConfusion hs
  | some value =>
      rw [hget] at h
      simp only at h
      by_cases hmod : lastSeg key ∈ fieldModifiers
      · rw [if_pos hmod] at h
        cases hpm : processModifier (lastSeg key) value with
        | error e => rw [hpm] at h; exact Except.noConfusion h
        | ok value2 =>
            rw [hpm] at h
            obtain ⟨p, fl, rfl⟩ :=
              processModifier_ok_directive (lastSeg key) value value2 hmod hpm
            have hwfdel : wfObj (objDelete st key) = true := wfObj_objDelete st key hwf
            have hwf2 : wfObj (objSet (objDelete st key) (stripSeg key) (directive p fl)) = true :=
              wfObj_objSet _ _ _ hwfdel (wfVal_directive p fl)
            obtain ⟨hwfst', hcases⟩ :=
              ihtail _ _ _ _ _ _ _ hwf2 (wfVal_directive p fl) h
            refine ⟨hwfst', fun k' v' hm => ?_⟩
            rcases hcases with ⟨_, r, g, hbq, _, _, rfl⟩ | ⟨hfalse, _, _⟩ | ⟨hfalse, _⟩
            · have hr : r = directive p fl := directive_compile_id g p fl fields _ r hbq
              subst hr
              rcases spineMem_objSet _ _ _ _ _ hm with ⟨rfl, rfl⟩ | hm2
              · exact Or.inr (finishedEntry_directive fields ctx _ p fl)
              · rcases spineMem_objSet _ _ _ _ _ hm2 with ⟨rfl, rfl⟩ | hm3
                · exact Or.inr (finishedEntry_directive fields ctx _ p fl)
                · have hm4 := spineMem_objDelete _ _ _ _ hm3
                  refine Or.inl ⟨hm4, ?_⟩
                  rintro rfl
                  exact not_spineMem_objDelete_self _ _ _ hwf hm3
            · rw [jsTypeofObject_directive] at hfalse; exact Bool.noConfusion hfalse
            · rw [jsTypeofObject_directive] at hfalse; exact Bool.noConfusion hfalse
      · rw [if_neg hmod] at h
        have hwv := wfVal_of_objGet st key value hwf hget
        obtain ⟨hwfst', hcases⟩ :=
          ihtail st key value (joinField ctx key) fields ctx st' hwf hwv h
        refine ⟨hwfst', fun k' v' hm => ?_⟩
        rcases hcases with ⟨hty, r, g, hbq, hwr, hfixr, rfl⟩ | ⟨hty, hc, rfl⟩ | ⟨hty, rfl⟩
        · by_cases hk : k' = key
          · subst hk
            have hv' : v' = r := spineMem_objSet_self_wf _ _ _ _ hwf hm
            subst hv'
            refine Or.inr ⟨fun hf => ?_, fun _ => ?_⟩
            · have hrt := buildQueryFromParams_typeof g value fields _ _ hty hbq
              rw [hrt] at hf
              exact Bool.noConfusion hf
            · simpa only [ctxFor] using hfixr
          · rcases spineMem_objSet _ _ _ _ _ hm with ⟨hk', _⟩ | hm2
            · exact absurd hk' hk
            · exact Or.inl ⟨hm2, hk⟩
        · by_cases hk : k' = key
          · subst hk
            have hv' : v' = value := by
              have hg2 := objGet_of_spineMem_wf _ _ _ hwf hm
              rw [hget] at hg2
              exact (Option.some.inj hg2).symm
            subst hv'
            refine Or.inr ⟨fun _ => hc, fun hf => ?_⟩
            · rw [hty] at hf
              exact Bool.noConfusion hf
          · exact Or.inl ⟨hm, hk⟩
        · have hm2 := spineMem_objDelete _ _ _ _ hm
          refine Or.inl ⟨hm2, ?_⟩
          rintro rfl
          exact not_spineMem_objDelete_self _ _ _ hwf hm

theorem master_each_step (f : Nat) (ihstep : MstepP f) (iheach : MeachP f) :
    MeachP (f + 1) := by
  intro ks st fields ctx st' hwf hdone h
  cases ks with
  | nil =>
      simp only [compileEach] at h
      have hst' := Except.ok.inj h
      subst hst'
      exact ⟨hwf, fun k v hm => hdone k v hm (by simp)⟩
  | cons key keys =>
      simp only [compileEach] at h
      cases hstep : compileStep f st key fields ctx with
      | error e => rw [hstep] at h; exact Except.noConfusion h
      | ok st2 =>
          rw [hstep] at h
          obtain ⟨hwf2, hdesc⟩ := ihstep st key fields ctx st2 hwf hstep
          refine iheach keys st2 fields ctx st' hwf2 ?_ h
          intro k v hm hnot
          rcases hdesc k v hm with ⟨hmem, hne⟩ | hfin
          · exact hdone k v hmem (by simp [hnot, hne])
          · exact hfin

theorem master_val_step (f : Nat) (iheach : MeachP f) (iharr : MarrP f) :
    MvalP (f + 1) := by
  intro v fields ctx r hwv h
  cases v with
  | vObj o =>
      simp only [buildQueryFromParams] at h
      cases he : compileEach f (objKeys o) o fields ctx with
      | error e => rw [he] at h; exact Except.noConfusion h
      | ok o2 =>
          rw [he] at h
          simp only [Except.map] at h
          have hr := Except.ok.inj h
          subst hr
          obtain ⟨hwf2, hfin⟩ := iheach (objKeys o) o fields ctx o2 (by simpa [wfVal] using hwv)
            (fun k v hm hnot => absurd (mem_objKeys_of_spineMem o k v hm) hnot) he
          refine ⟨by simpa [wfVal] using hwf2, ?_⟩
          simp only [pureFilterVal, JsVal.vObj.injEq]
          exact entries_finished_fix o2 fields ctx hfin
  | vArr a =>
      simp only [buildQueryFromParams] at h
      cases he : compileArr f a fields ctx with
      | error e => rw [he] at h; exact Except.noConfusion h
      | ok a2 =>
          rw [he] at h
          simp only [Except.map] at h
          have hr := Except.ok.inj h
          subst hr
          obtain ⟨hwf2, hfix⟩ := iharr a fields ctx a2 (by simpa [wfVal] using hwv) he
          refine ⟨by simpa [wfVal] using hwf2, ?_⟩
          simp only [pureFilterVal, JsVal.vArr.injEq]
          exact hfix
  | vStr s =>
      simp only [buildQueryFromParams] at h
      have hr := Except.ok.inj h
      subst hr
      exact ⟨hwv, rfl⟩
  | vNum n =>
      simp only [buildQueryFromParams] at h
      have hr := Except.ok.inj h
      subst hr
      exact ⟨hwv, rfl⟩
  | vBool b =>
      simp only [buildQueryFromParams] at h
      have hr := Except.ok.inj h
      subst hr
      exact ⟨hwv, rfl⟩
  | vNull =>
      simp only [buildQueryFromParams] at h
      have hr := Except.ok.inj h
      subst hr
      exact ⟨hwv, rfl⟩
  | vRegex p fl =>
      simp only [buildQueryFromParams] at h
      have hr := Except.ok.inj h
      subst hr
      exact ⟨hwv, rfl⟩

theorem master_arr_step (f : Nat) (ihval : MvalP f) (iharr : MarrP f) :
    MarrP (f + 1) := by
  intro a fields ctx r hwa h
  cases a with
  | anil =>
      simp only [compileArr] at h
      have hr := Except.ok.inj h
      subst hr
      exact ⟨rfl, rfl⟩
  | acons v rest =>
      simp only [compileArr] at h
      have hwa' := hwa
      simp only [wfArr, Bool.and_eq_true] at hwa'
      cases hbq : buildQueryFromParams f v fields ctx with
      | error e => rw [hbq] at h; exact Except.noConfusion h
      | ok v2 =>
          rw [hbq] at h
          cases hrest : compileArr f rest fields ctx with
          | error e => rw [hrest] at h; exact Except.noConfusion h
          | ok r2 =>
              rw [hrest] at h
              simp only [Except.map] at h
              have hr := Except.ok.inj h
              subst hr
              obtain ⟨hw1, hfix1⟩ := ihval v fields ctx v2 hwa'.1 hbq
              obtain ⟨hw2, hfix2⟩ := iharr rest fields ctx r2 hwa'.2 hrest
              refine ⟨by simp [wfArr, hw1, hw2], ?_⟩
              simp only [pureFilterArr, JsArr.acons.injEq]
              exact ⟨hfix1, hfix2⟩

theorem master_invariant : ∀ f : Nat,
    MvalP f ∧ MeachP f ∧ MstepP f ∧ MtailP f ∧ MarrP f := by
  intro f
  induction f with
  | zero =>
      refine ⟨?_, ?_, ?_, ?_, ?_⟩
      · intro v fields ctx r _ h
        exact Except.noConfusion h
      · intro ks st fields ctx st' _ _ h
        exact Except.noConfusion h
      · intro st key fields ctx st' _ h
        exact Except.noConfusion h
      · intro st key value field fields ctx st' _ _ h
        exact Except.noConfusion h
      · intro a fields ctx r _ h
        exact Except.noConfusion h
  | succ f ih =>
      obtain ⟨ihval, iheach, ihstep, ihtail, iharr⟩ := ih
      exact ⟨master_val_step f iheach iharr,
        master_each_step f ihstep iheach,
        master_step_step f ihtail,
        master_tail_step f ihval,
        master_arr_step f ihval iharr⟩

/-- Master theorem: a successful compile of a well-formed value produces
a well-formed fixpoint of the single-pass filter. -/
theorem buildQueryFromParams_fixpoint (f : Nat) (v : JsVal) (fields : List String)
    (ctx : String) (r : JsVal) (hwv : wfVal v = true)
    (h : buildQueryFromParams f v fields ctx = .ok r) :
    wfVal r = true ∧ pureFilterVal r fields ctx = r :=
  (master_invariant f).1 v fields ctx r hwv h

/-! ## Sufficient fuel on already-compiled, modifier-free values -/

theorem modFree_of_spineMem : ∀ (o : JsObj) (k : String) (v : JsVal),
    modFreeObj o = true → spineMem o k v →
    lastSeg k ∉ fieldModifiers ∧ modFreeVal v = true
  | .nil, _, _, _, h => h.elim
  | .cons k0 v0 rest, k, v, hmf, h => by
      simp only [modFreeObj, Bool.and_eq_true, Bool.not_eq_true', decide_eq_false_iff_not]
        at hmf
      rcases h with ⟨rfl, rfl⟩ | h
      · exact ⟨hmf.1.1, hmf.1.2⟩
      · exact modFree_of_spineMem rest k v hmf.2 h

theorem isSome_objGet_of_mem_objKeys : ∀ (o : JsObj) (k : String),
    k ∈ objKeys o → (objGet o k).isSome = true
  | .nil, _, h => by simp [objKeys] at h
  | .cons k0 v0 rest, k, h => by
      by_cases hk : k0 = k
      · simp [objGet, hk]
      · simp only [objKeys, List.mem_cons] at h
        rcases h with rfl | h
        · exact absurd rfl hk
        · simp only [objGet, if_neg hk]
          exact isSome_objGet_of_mem_objKeys rest k h

theorem needKs_irrel : ∀ (ks : List String) (k : String) (v : JsVal) (rest : JsObj),
    k ∉ ks → needKs ks (.cons k v rest) = needKs ks rest
  | [], _, _, _, _ => rfl
  | k' :: ks', k, v, rest, h => by
      simp only [List.mem_cons, not_or] at h
      simp only [needKs, objGet, if_neg h.1]
      rw [needKs_irrel ks' k v rest h.2]

theorem needKs_objKeys_le : ∀ (o : JsObj),
    wfObj o = true → needKs (objKeys o) o ≤ needEntries o
  | .nil, _ => by simp [needKs, objKeys, needEntries]
  | .cons k v rest, hwf => by
      rcases (wfObj_cons_iff k v rest).1 hwf with ⟨hnone, _, hrest⟩
      have hnotmem : k ∉ objKeys rest := by
        intro hmem
        have := isSome_objGet_of_mem_objKeys rest k hmem
        rw [hnone] at this
        exact Bool.noConfusion this
      have h1 : needKs (objKeys rest) (.cons k v rest) = needKs (objKeys rest) rest :=
        needKs_irrel (objKeys rest) k v rest hnotmem
      have h2 := needKs_objKeys_le rest hrest
      have hg : objGet (.cons k v rest) k = some v := by simp [objGet]
      simp only [objKeys, needKs, needEntries, hg, h1, needValOpt]
      omega

def SvalP (f : Nat) : Prop :=
  ∀ (v : JsVal) (fields : List String) (ctx : String),
    wfVal v = true → modFreeVal v = true → pureFilterVal v fields ctx = v →
    needVal v ≤ f → buildQueryFromParams f v fields ctx = .ok v

def SeachP (f : Nat) : Prop :=
  ∀ (ks : List String) (st : JsObj) (fields : List String) (ctx : String),
    wfObj st = true → modFreeObj st = true → pureFilterObj st fields ctx = st →
    needKs ks st ≤ f → compileEach f ks st fields ctx = .ok st

def SstepP (f : Nat) : Prop :=
  ∀ (st : JsObj) (key : String) (fields : List String) (ctx : String),
    wfObj st = true → modFreeObj st = true → pureFilterObj st fields ctx = st →
    needValOpt (objGet st key) + 3 ≤ f → compileStep f st key fields ctx = .ok st

def StailP (f : Nat) : Prop :=
  ∀ (st : JsObj) (key : String) (value : JsVal) (fields : List String) (ctx : String),
    wfObj st = true → objGet st key = some value → modFreeVal value = true →
    (jsTypeofObject value = true → wfVal value = true) →
    (jsTypeofObject value = true →
      pureFilterVal value fields (ctxFor ctx key) = value) →
    (jsTypeofObject value = false →
      (joinField ctx key ∈ fields ∨ key ∈ queryOperatorIgnore)) →
    needVal value + 1 ≤ f →
    compileTail f st key value (joinField ctx key) fields ctx = .ok st

def SarrP (f : Nat) : Prop :=
  ∀ (a : JsArr) (fields : List String) (ctx : String),
    wfArr a = true → modFreeArr a = true → pureFilterArr a fields ctx = a →
    needElems a ≤ f → compileArr f a fields ctx = .ok a

theorem success_tail_step (f : Nat) (ihval : SvalP f) : StailP (f + 1) := by
  intro st key value fields ctx hwf hget hmf hwv hfix hcond hfuel
  simp only [compileTail]
  by_cases hty : jsTypeofObject value = true
  · rw [if_pos hty]
    have hbq : buildQueryFromParams f value fields
        (if key ∈ queryOperatorIgnore then ctx else joinField ctx key) = .ok value := by
      apply ihval value fields _ (hwv hty) hmf
      · simpa only [ctxFor] using hfix hty
      · omega
    by_cases hop : key ∈ queryOperatorIgnore
    · rw [if_pos hop]
      rw [if_pos hop] at hbq
      rw [hbq]
      simp only [Except.map]
      rw [objSet_self st key value hget]
    · rw [if_neg hop]
      rw [if_neg hop] at hbq
      rw [hbq]
      simp only [Except.map]
      rw [objSet_self st key value hget]
  · rw [if_neg hty]
    rw [if_pos (hcond (by simpa using hty))]

theorem success_step_step (f : Nat) (ihtail : StailP f) : SstepP (f + 1) := by
  intro st key fields ctx hwf hmf hfix hfuel
  simp only [compileStep]
  cases hget : objGet st key with
  | none => simp only
  | some value =>
      simp only
      have hmem := spineMem_of_objGet st key value hget
      obtain ⟨hmodk, hmfv⟩ := modFree_of_spineMem st key value hmf hmem
      rw [if_neg hmodk]
      have hfin := pureFilterObj_fix_entries st fields ctx hfix key value hmem
      apply ihtail st key value fields ctx hwf hget hmfv
      · intro hty
        exact wfVal_of_objGet st key value hwf hget
      · exact hfin.2
      · exact hfin.1
      · rw [hget] at hfuel
        simp only [needValOpt] at hfuel
        omega

theorem success_each_step (f : Nat) (ihstep : SstepP f) (iheach : SeachP f) :
    SeachP (f + 1) := by
  intro ks st fields ctx hwf hmf hfix hfuel
  cases ks with
  | nil => simp only [compileEach]
  | cons key keys =>
      simp only [compileEach]
      have hfuel' : needValOpt (objGet st key) + needKs keys st + 4 ≤ f + 1 := by
        simpa [needKs] using hfuel
      have hstep : compileStep f st key fields ctx = .ok st :=
        ihstep st key fields ctx hwf hmf hfix (by omega)
      rw [hstep]
      exact iheach keys st fields ctx hwf hmf hfix (by omega)

theorem success_val_step (f : Nat) (iheach : SeachP f) (iharr : SarrP f) :
    SvalP (f + 1) := by
  intro v fields ctx hwv hmf hfix hfuel
  cases v with
  | vObj o =>
      simp only [buildQueryFromParams]
      have hfix' : pureFilterObj o fields ctx = o := by
        simpa only [pureFilterVal, JsVal.vObj.injEq] using hfix
      have he : compileEach f (objKeys o) o fields ctx = .ok o := by
        apply iheach (objKeys o) o fields ctx (by simpa [wfVal] using hwv)
          (by simpa [modFreeVal] using hmf) hfix'
        have h1 := needKs_objKeys_le o (by simpa [wfVal] using hwv)
        simp only [needVal] at hfuel
        omega
      rw [he]
      simp only [Except.map]
  | vArr a =>
      simp only [buildQueryFromParams]
      have hfix' : pureFilterArr a fields ctx = a := by
        simpa only [pureFilterVal, JsVal.vArr.injEq] using hfix
      have he : compileArr f a fields ctx = .ok a := by
        apply iharr a fields ctx (by simpa [wfVal] using hwv)
          (by simpa [modFreeVal] using hmf) hfix'
        simp only [needVal] at hfuel
        omega
      rw [he]
      simp only [Except.map]
  | vStr s => simp only [buildQueryFromParams]
  | vNum n => simp only [buildQueryFromParams]
  | vBool b => simp only [buildQueryFromParams]
  | vNull => simp only [buildQueryFromParams]
  | vRegex p fl => simp only [buildQueryFromParams]

theorem success_arr_step (f : Nat) (ihval : SvalP f) (iharr : SarrP f) :
    SarrP (f + 1) := by
  intro a fields ctx hwa hmf hfix hfuel
  cases a with
  | anil => simp only [compileArr]
  | acons v rest =>
      simp only [compileArr]
      simp only [wfArr, Bool.and_eq_true] at hwa
      simp only [modFreeArr, Bool.and_eq_true] at hmf
      simp only [pureFilterArr, JsArr.acons.injEq] at hfix
      simp only [needElems] at hfuel
      have h1 : buildQueryFromParams f v fields ctx = .ok v :=
        ihval v fields ctx hwa.1 hmf.1 hfix.1 (by omega)
      have h2 : compileArr f rest fields ctx = .ok rest :=
        iharr rest fields ctx hwa.2 hmf.2 hfix.2 (by omega)
      rw [h1, h2]
      simp only [Except.map]

theorem success_invariant : ∀ f : Nat,
    SvalP f ∧ SeachP f ∧ SstepP f ∧ StailP f ∧ SarrP f := by
  intro f
  induction f with
  | zero =>
      refine ⟨?_, ?_, ?_, ?_, ?_⟩
      · intro v fields ctx _ _ _ hfuel
        exact absurd hfuel (by cases v <;> simp [needVal])
      · intro ks st fields ctx _ _ _ hfuel
        refine absurd hfuel ?_
        cases ks <;> simp only [needKs] <;> omega
      · intro st key fields ctx _ _ _ hfuel
        exact absurd hfuel (by omega)
      · intro st key value fields ctx _ _ _ _ _ _ hfuel
        exact absurd hfuel (by omega)
      · intro a fields ctx _ _ _ hfuel
        exact absurd hfuel (by cases a <;> simp [needElems])
  | succ f ih =>
      obtain ⟨ihval, iheach, ihstep, ihtail, iharr⟩ := ih
      exact ⟨success_val_step f iheach iharr,
        success_each_step f ihstep iheach,
        success_step_step f ihtail,
        success_tail_step f ihval,
        success_arr_step f ihval iharr⟩

/-! ## Decimal rendering (kernel-computable `String(n)`) -/

def natToDecAux : Nat → Nat → List Char → List Char
  | 0, _, acc => acc
  | fuel + 1, n, acc =>
      let c := Char.ofNat (48 + n % 10)
      if n / 10 = 0 then c :: acc else natToDecAux fuel (n / 10) (c :: acc)

/-- Decimal rendering of a natural number. -/
def natToDec (n : Nat) : String := String.mk (natToDecAux (n + 1) n [])

/-- Decimal rendering of an integer (JavaScript `String(n)`). -/
def intToDec : Int → String
  | .ofNat n => natToDec n
  | .negSucc n => "-" ++ natToDec (n + 1)

/-! ## Generic association-list helpers (query-string parameter objects
and the configuration object) -/

def assocSet {α : Type} : List (String × α) → String → α → List (String × α)
  | [], k, v => [(k, v)]
  | (k0, v0) :: rest, k, v =>
      if k0 = k then (k0, v) :: rest else (k0, v0) :: assocSet rest k v

def assocGet {α : Type} : List (String × α) → String → Option α
  | [], _ => none
  | (k0, v0) :: rest, k => if k0 = k then some v0 else assocGet rest k

theorem assocSet_ne_nil {α : Type} : ∀ (ps : List (String × α)) (k : String) (v : α),
    assocSet ps k v ≠ []
  | [], _, _ => by simp [assocSet]
  | (k0, v0) :: rest, k, v => by
      by_cases hk : k0 = k <;> simp [assocSet, hk]

theorem assocGet_assocSet_self {α : Type} : ∀ (ps : List (String × α)) (k : String) (v : α),
    assocGet (assocSet ps k v) k = some v
  | [], _, _ => by simp [assocSet, assocGet]
  | (k0, v0) :: rest, k, v => by
      by_cases hk : k0 = k
      · simp [assocSet, assocGet, hk]
      · simp [assocSet, assocGet, hk, assocGet_assocSet_self rest k v]

theorem assocGet_assocSet_ne {α : Type} : ∀ (ps : List (String × α)) (k k' : String) (v : α),
    k' ≠ k → assocGet (assocSet ps k v) k' = assocGet ps k'
  | [], k, k', v, h => by simp [assocSet, assocGet, Ne.symm h]
  | (k0, v0) :: rest, k, k', v, h => by
      by_cases hk : k0 = k
      · subst hk
        simp [assocSet, assocGet, Ne.symm h]
      · by_cases hk' : k0 = k'
        · subst hk'
          simp [assocSet, assocGet, h, hk]
        · simp [assocSet, assocGet, hk, hk', assocGet_assocSet_ne rest k k' v h]

/-! ## Pagination meta (`crud.buildResultsMeta`, source lines 511-562)

The embedding takes `limit`, `offset` and `page` as the integers the
source obtains via `parseInt(params.limit || config.queryLimit, 10)`
(and similarly for `offset` and `page`, the latter defaulting to 1); the
count operation's outcome is passed as an `Except` value (the promise
returned by `crud.count(query)`).  Cloned parameter objects store the
page number in decimal string form, as the query-string serialization
renders it; no theorem below depends on the textual encoding.  The
returned `Except` is the promise of the builder itself: the source calls
`deferred.resolve` in both the fulfillment and the rejection
continuation of the count, so no branch produces `.error`. -/

inductive MetaLink where
  | strLink (s : String)
  | objLink (ps : List (String × String))
deriving DecidableEq

/-- The `documents` field: the count on success, the raw error value
when the count failed. -/
inductive DocumentsField where
  | count (n : Nat)
  | err (e : String)
deriving DecidableEq

structure PageLinks where
  first : MetaLink
  prev : MetaLink
  next : MetaLink
  last : MetaLink
deriving DecidableEq

structure ResultsMeta where
  documents : DocumentsField
  pages : Int
  limit : Int
  offset : Int
  links : PageLinks
deriving DecidableEq

/-- The initial value of each link: `(path) ? '' : {}`. -/
def defaultLink (path : String) : MetaLink :=
  if path = "" then .objLink [] else .strLink ""

/-- `querystring.stringify` (percent-encoding omitted; no theorem
depends on the escaping of individual characters). -/
def qsStringify : List (String × String) → String
  | [] => ""
  | [(k, v)] => k ++ "=" ++ v
  | (k, v) :: rest => k ++ "=" ++ v ++ "&" ++ qsStringify rest

/-- `(path) ? path + '?' + querystring.stringify(ps) : ps`. -/
def mkLink (path : String) (ps : List (String × String)) : MetaLink :=
  if path = "" then .objLink ps else .strLink (path ++ "?" ++ qsStringify ps)

/-- A link that was actually assigned, as opposed to its initial
default. -/
def linkPresent (path : String) (l : MetaLink) : Prop :=
  l ≠ defaultLink path

/-- `Math.ceil(count / limit)` for a natural count and positive limit. -/
def ceilDiv (count : Nat) (limit : Int) : Int :=
  ((count : Int) + limit - 1) / limit

def buildResultsMeta (path : String) (params : List (String × String))
    (limit offset page : Int) (countResult : Except String Nat) :
    Except String ResultsMeta :=
  let meta0 : ResultsMeta :=
    { documents := .count 0
      pages := 0
      limit := limit
      offset := offset
      links :=
        { first := defaultLink path
          prev := defaultLink path
          next := defaultLink path
          last := defaultLink path } }
  let meta1 := { meta0 with links.first := mkLink path (assocSet params "page" (intToDec 1)) }
  let meta2 :=
    if page > 1 then
      { meta1 with links.prev := mkLink path (assocSet params "page" (intToDec (page - 1))) }
    else meta1
  match countResult with
  | .ok count =>
      let pages : Int := if count ≠ 0 ∧ limit > 0 then ceilDiv count limit else 1
      let meta3 := { meta2 with documents := .count count, pages := pages }
      let meta4 :=
        if limit > 0 ∧ (count : Int) > page * limit then
          { meta3 with links.next := mkLink path (assocSet params "page" (intToDec (page + 1))) }
        else meta3
      .ok { meta4 with links.last := mkLink path (assocSet params "page" (intToDec pages)) }
  | .error e => .ok { meta2 with documents := .err e }

theorem mkLink_present (path : String) (params : List (String × String))
    (s : String) : linkPresent path (mkLink path (assocSet params "page" s)) := by
  unfold linkPresent mkLink defaultLink
  by_cases hp : path = ""
  · simp only [if_pos hp]
    intro h
    exact assocSet_ne_nil params "page" s (MetaLink.objLink.inj h)
  · simp only [if_neg hp]
    intro h
    have hlen := congrArg String.length (MetaLink.strLink.inj h)
    simp [String.length_append] at hlen
    have : path.length = 0 := by omega
    exact hp (String.ext (List.length_eq_zero.mp this))

/-! ## Configuration merging (`_.extend(exports.config, config || {})`)

`serveSockets` (line 577), `serveRoutes` (line 742) and `serveCrud`
(line 1210) all merge the per-call overrides into the module-level
`exports.config` object itself: `_.extend` mutates its first argument
and returns it.  `bindMergeConfig` returns that merged object, which is
simultaneously the configuration the bind call uses and the new state of
the shared `exports.config`. -/

def uExtend (dest src : List (String × JsVal)) : List (String × JsVal) :=
  src.foldl (fun d kv => assocSet d kv.1 kv.2) dest

def bindMergeConfig (moduleConfig overrides : List (String × JsVal)) :
    List (String × JsVal) :=
  uExtend moduleConfig overrides

theorem assocGet_uExtend_not_mem : ∀ (src : List (String × JsVal))
    (dest : List (String × JsVal)) (s : String),
    s ∉ src.map Prod.fst → assocGet (uExtend dest src) s = assocGet dest s
  | [], _, _, _ => rfl
  | (k, v) :: rest, dest, s, h => by
      simp only [List.map, List.mem_cons, not_or] at h
      have hstep := assocGet_uExtend_not_mem rest (assocSet dest k v) s (by
        intro hmem
        exact h.2 hmem)
      simp only [uExtend, List.foldl] at hstep ⊢
      rw [hstep]
      exact assocGet_assocSet_ne dest k s v h.1

/-! ## Socket handler emissions (`serveSockets`, source lines 607-734)

Each function maps the outcome of the underlying CRUD promise to the
`(channel, payload)` pair the handler emits.  The `delete` handler
(lines 713-734) emits on `api.{collection}.update.response` in *both*
continuations. -/

/-- JavaScript truthiness of the values these handlers test. -/
def jsTruthy : JsVal → Bool
  | .vNull => false
  | .vBool b => b
  | .vNum n => n ≠ 0
  | .vStr s => s ≠ ""
  | _ => true

def socketSaveEmit (c : String) : Except JsVal JsVal → String × JsVal
  | .ok document =>
      ("api." ++ c ++ ".save.response",
        .vObj (.cons "message" (.vStr "Resource created")
          (.cons "document" document .nil)))
  | .error e => ("api." ++ c ++ ".save.error", .vObj (.cons "message" e .nil))

def socketFindEmit (c : String) : Except JsVal (JsVal × JsVal) → String × JsVal
  | .ok (documents, meta) =>
      ("api." ++ c ++ ".find.response",
        .vObj (.cons "documents" documents (.cons "meta" meta .nil)))
  | .error e => ("api." ++ c ++ ".find.error", .vObj (.cons "message" e .nil))

def socketUpdateEmit (c : String) : Except JsVal JsVal → String × JsVal
  | .ok update =>
      ("api." ++ c ++ ".update.response",
        if jsTruthy update then
          .vObj (.cons "message" (.vStr "Resources updated")
            (.cons "update" update .nil))
        else .vObj (.cons "message" (.vStr "Resource not found") .nil))
  | .error e => ("api." ++ c ++ ".update.error", .vObj (.cons "message" e .nil))

def socketDeleteEmit (c : String) : Except JsVal JsVal → String × JsVal
  | .ok removed =>
      ("api." ++ c ++ ".update.response",
        .vObj (.cons "message" (.vStr "Resources deleted")
          (.cons "removed" removed .nil)))
  | .error e => ("api." ++ c ++ ".update.response", .vObj (.cons "message" e .nil))

/-! ## Handler-side parameter flow (for the mutation claim)

The socket `save` handler (line 613-615) runs
`document = config.buildQueryFromParams(params, fields)` on the event
payload itself; since the compiler mutates its argument in place and
returns it, the payload owned by the socket caller equals the returned
value after the call.  The REST create handler (lines 764-771) first
runs `params = _.extend(req.query || {}, req.body || {})`, which merges
the body into the `req.query` object itself, and then compiles `params`
in place, so the post-call state of `req.query` is the compiled merge. -/

/-- `_.extend(dest, src)` on objects: assign every binding of `src` to
`dest`, in order, mutating and returning `dest`. -/
def objExtend (dest : JsObj) : JsObj → JsObj
  | .nil => dest
  | .cons k v rest => objExtend (objSet dest k v) rest

/-- State of the socket caller's `params` object after `saveDocument`
has compiled it (also the `document` the handler saves). -/
def saveDocumentParamsAfter (fuel : Nat) (params : JsVal) (fields : List String) :
    Except JsErr JsVal :=
  buildQueryFromParams fuel params fields ""

/-- State of the caller's `req.query` object after `createDocument` has
merged the body into it and compiled the result in place. -/
def createDocumentQueryAfter (fuel : Nat) (reqQuery reqBody : JsObj)
    (fields : List String) : Except JsErr JsVal :=
  buildQueryFromParams fuel (.vObj (objExtend reqQuery reqBody)) fields ""

/-! ## Escaping produces a literal pattern -/

theorem literalOfPattern_cons_esc (d : Char) (rest : List Char) :
    literalOfPattern ('\\' :: d :: rest) = (literalOfPattern rest).map (fun l => d :: l) := by
  simp [literalOfPattern]

theorem literalOfPattern_cons_plain (c : Char) (rest : List Char)
    (hcb : ¬ c = '\\') (hc : c ∉ regexSpecialChars) :
    literalOfPattern (c :: rest) = (literalOfPattern rest).map (fun l => c :: l) := by
  cases rest with
  | nil => simp [literalOfPattern, hcb, hc, Option.map]
  | cons d t => simp [literalOfPattern, hcb, hc]

theorem literalOfPattern_escapeChars : ∀ (l : List Char),
    literalOfPattern (escapeChars l) = some l
  | [] => rfl
  | c :: cs => by
      by_cases hc : c ∈ regexSpecialChars
      · simp only [escapeChars, if_pos hc, literalOfPattern_cons_esc,
          literalOfPattern_escapeChars cs, Option.map]
      · have hcb : ¬ c = '\\' := fun h => hc (by rw [h]; decide)
        simp only [escapeChars, if_neg hc,
          literalOfPattern_cons_plain c (escapeChars cs) hcb hc,
          literalOfPattern_escapeChars cs, Option.map]

/-! ## Claim theorems -/

/-- C1 (counterexample): the compiler does not remove every key that is
neither a whitelisted field path nor an operator/modifier name — a
non-whitelisted key whose value is a nested mapping survives (with its
contents filtered), here as the empty object bound to `other`. -/
theorem buildQueryFromParams_keeps_object_valued_key :
    buildQueryFromParams 100
        (.vObj (.cons "other" (.vObj (.cons "z" (.vNum 1) .nil)) .nil))
        ["name.first", "name.last", "email"] ""
      = .ok (.vObj (.cons "other" (.vObj .nil) .nil)) ∧
    "other" ∉ ["name.first", "name.last", "email"] ∧
    "other" ∉ queryOperatorIgnore ∧ lastSeg "other" ∉ fieldModifiers :=
  ⟨rfl, by decide, by decide, by decide⟩

/-- C1 (amended): compiling a well-formed parameter object drops, at
every nesting depth, every key bound to a non-object-typed (scalar)
value whose dotted field is not whitelisted and whose key is not an
operator name (`sanitizedVal`); keys bound to nested mappings are kept
with their contents recursively filtered.  In particular the concrete
example of the claim holds: with whitelist
`name.first, name.last, email`, compiling
`{name: {first: "Jo", bogus: "x"}, other: "y"}` yields
`{name: {first: "Jo"}}`. -/
theorem buildQueryFromParams_drops_unlisted_scalar_keys :
    (∀ (f : Nat) (v : JsVal) (fields : List String) (ctx : String) (r : JsVal),
      wfVal v = true → buildQueryFromParams f v fields ctx = .ok r →
      sanitizedVal r fields ctx = true) ∧
    buildQueryFromParams 100
        (.vObj (.cons "name"
            (.vObj (.cons "first" (.vStr "Jo") (.cons "bogus" (.vStr "x") .nil)))
          (.cons "other" (.vStr "y") .nil)))
        ["name.first", "name.last", "email"] ""
      = .ok (.vObj (.cons "name" (.vObj (.cons "first" (.vStr "Jo") .nil)) .nil)) := by
  constructor
  · intro f v fields ctx r hwv h
    obtain ⟨_, hfix⟩ := buildQueryFromParams_fixpoint f v fields ctx r hwv h
    exact fix_sanitizedVal r fields ctx hfix
  · rfl

/-- C1 (witness): the universal part applied to the claim's concrete
example. -/
theorem buildQueryFromParams_drops_unlisted_scalar_keys_witness :
    sanitizedVal (.vObj (.cons "name" (.vObj (.cons "first" (.vStr "Jo") .nil)) .nil))
      ["name.first", "name.last", "email"] "" = true :=
  buildQueryFromParams_drops_unlisted_scalar_keys.1 100
    (.vObj (.cons "name"
        (.vObj (.cons "first" (.vStr "Jo") (.cons "bogus" (.vStr "x") .nil)))
      (.cons "other" (.vStr "y") .nil)))
    ["name.first", "name.last", "email"] "" _ (by decide) rfl

/-- C2 (counterexample): with `email` *not* whitelisted (empty
whitelist), compiling `{"email.contains": "x"}` does not yield the empty
mapping — it still yields the directive under `email`. -/
theorem modifier_not_subject_to_whitelist_cex :
    buildQueryFromParams 10 (.vObj (.cons "email.contains" (.vStr "x") .nil)) [] ""
      = .ok (.vObj (.cons "email" (directive "x" "") .nil)) ∧
    (JsVal.vObj (.cons "email" (directive "x" "") .nil)) ≠ .vObj .nil :=
  ⟨rfl, by decide⟩

/-- C2 (amended): for every whitelist, compiling
`{"email.contains": "x"}` yields `{email: {$regex: /x/}}` — whether or
not `email` is whitelisted.  The stripped key is never checked against
the whitelist: the directive the modifier produces is object-typed, so
the compiler recurses into it instead of reaching the scalar
whitelist check, and the directive's own `$regex` key is in the
operator ignore list. -/
theorem modifier_directive_bypasses_whitelist (W : List String) :
    buildQueryFromParams 10 (.vObj (.cons "email.contains" (.vStr "x") .nil)) W ""
      = .ok (.vObj (.cons "email" (directive "x" "") .nil)) := rfl

/-- C3 (counterexample): compiling is not idempotent.  The key
`a.contains.contains` is stripped only once per compile: the first
compile yields `{"a.contains": {$regex: /x/}}`, and compiling that
output strips `.contains` again and applies the `contains` modifier to
the directive object, which throws a `TypeError` (the object has no
`.replace`). -/
theorem stacked_modifier_breaks_idempotence :
    buildQueryFromParams 100
        (.vObj (.cons "a.contains.contains" (.vStr "x") .nil)) [] ""
      = .ok (.vObj (.cons "a.contains" (directive "x" "") .nil)) ∧
    buildQueryFromParams 100
        (.vObj (.cons "a.contains" (directive "x" "") .nil)) [] ""
      = .error .typeError :=
  ⟨rfl, rfl⟩

/-- C3 (amended): compiling is idempotent on compiled output that
contains no key ending in a modifier segment: if a well-formed `p`
compiles to `q` and no key of `q` ends in `.contains`/`.regex`, then
compiling `q` (with sufficient fuel) returns `q` unchanged. -/
theorem buildQueryFromParams_idempotent_on_modFree_output
    (f : Nat) (p : JsVal) (fields : List String) (ctx : String) (q : JsVal)
    (hwf : wfVal p = true)
    (h : buildQueryFromParams f p fields ctx = .ok q)
    (hmf : modFreeVal q = true)
    (f' : Nat) (hf' : needVal q ≤ f') :
    buildQueryFromParams f' q fields ctx = .ok q := by
  obtain ⟨hwq, hfix⟩ := buildQueryFromParams_fixpoint f p fields ctx q hwf h
  exact (success_invariant f').1 q fields ctx hwq hmf hfix hf'

/-- C3 (witness): `{"email.contains": "x", "other": "y"}` with whitelist
`[email]` compiles to `{email: {$regex: /x/}}`; recompiling that output
returns it unchanged. -/
theorem buildQueryFromParams_idempotent_witness :
    buildQueryFromParams 13 (.vObj (.cons "email" (directive "x" "") .nil)) ["email"] ""
      = .ok (.vObj (.cons "email" (directive "x" "") .nil)) :=
  buildQueryFromParams_idempotent_on_modFree_output 100
    (.vObj (.cons "email.contains" (.vStr "x") (.cons "other" (.vStr "y") .nil)))
    ["email"] "" _ (by decide) rfl (by decide) 13 (by decide)

/-- C4: pagination formulas of `buildResultsMeta` on a successful count:
`pageCount = count > 0 && limit > 0 ? ceil(count/limit) : 1`; the
`first` and `last` links are always assigned; `prev` is assigned iff
`page > 1`; `next` is assigned iff `limit > 0 && count > page * limit`
(so with `count = 25, limit = 10`, `next` is present at `page = 2` and
absent at `page = 3`). -/
theorem buildResultsMeta_pagination (path : String) (params : List (String × String))
    (limit offset page : Int) (count : Nat) :
    ∃ m, buildResultsMeta path params limit offset page (.ok count) = .ok m ∧
      m.pages = (if 0 < count ∧ 0 < limit then ceilDiv count limit else 1) ∧
      linkPresent path m.links.first ∧
      linkPresent path m.links.last ∧
      (linkPresent path m.links.prev ↔ page > 1) ∧
      (linkPresent path m.links.next ↔ (limit > 0 ∧ (count : Int) > page * limit)) := by
  refine ⟨_, rfl, ?_, ?_, ?_, ?_, ?_⟩
  · simp only [buildResultsMeta, apply_ite ResultsMeta.pages, ite_self]
    by_cases h1 : count ≠ 0 ∧ limit > 0
    · have h1' : 0 < count ∧ 0 < limit := ⟨Nat.pos_of_ne_zero h1.1, h1.2⟩
      simp [h1, h1']
    · have h1' : ¬ (0 < count ∧ 0 < limit) := fun hc => h1 ⟨Nat.pos_iff_ne_zero.mp hc.1, hc.2⟩
      simp [h1, h1']
  · simp only [buildResultsMeta, apply_ite ResultsMeta.links, apply_ite PageLinks.first,
      ite_self]
    exact mkLink_present path params (intToDec 1)
  · simp only [buildResultsMeta, apply_ite ResultsMeta.links, apply_ite PageLinks.last,
      ite_self]
    exact mkLink_present path params _
  · simp only [buildResultsMeta, apply_ite ResultsMeta.links, apply_ite PageLinks.prev,
      ite_self]
    by_cases h3 : page > 1
    · simp only [if_pos h3]
      exact ⟨fun _ => h3, fun _ => mkLink_present path params _⟩
    · simp only [if_neg h3]
      constructor
      · intro hpres
        exact absurd rfl hpres
      · intro hp
        exact absurd hp h3
  · simp only [buildResultsMeta, apply_ite ResultsMeta.links, apply_ite PageLinks.next,
      ite_self]
    by_cases h2 : limit > 0 ∧ (count : Int) > page * limit
    · simp only [if_pos h2]
      exact ⟨fun _ => h2, fun _ => mkLink_present path params _⟩
    · simp only [if_neg h2]
      constructor
      · intro hpres
        exact absurd rfl hpres
      · intro hp
        exact absurd hp h2

/-- C5: `buildResultsMeta` never rejects.  Its promise resolves for
every count outcome, and on a count failure it resolves with the
`documents` field holding the raw error value while `pages` and the
`next`/`last` links keep their initial defaults (`first` and `prev` were
already assigned before the count was issued). -/
theorem buildResultsMeta_swallows_count_failure :
    (∀ (path : String) (params : List (String × String)) (limit offset page : Int)
      (countResult : Except String Nat),
      ∃ m, buildResultsMeta path params limit offset page countResult = .ok m) ∧
    (∀ (path : String) (params : List (String × String)) (limit offset page : Int)
      (e : String),
      ∃ m, buildResultsMeta path params limit offset page (.error e) = .ok m ∧
        m.documents = .err e ∧ m.pages = 0 ∧
        m.links.next = defaultLink path ∧ m.links.last = defaultLink path) := by
  constructor
  · intro path params limit offset page countResult
    cases countResult with
    | ok count => exact ⟨_, rfl⟩
    | error e => exact ⟨_, rfl⟩
  · intro path params limit offset page e
    refine ⟨_, rfl, rfl, ?_, ?_, ?_⟩ <;>
      simp only [buildResultsMeta, apply_ite ResultsMeta.pages,
        apply_ite ResultsMeta.links, apply_ite PageLinks.next,
        apply_ite PageLinks.last, ite_self]

/-- C6: the `regex` modifier parses `"/ab+c/i"` as pattern `ab+c` with
flag `i` and treats `"plain"` as the whole pattern with no flags; the
`contains` modifier escapes every regex special character of its string
value and produces a flagless (case-sensitive) pattern whose literal
reading is exactly the original value (no unescaped anchor, repetition
or grouping syntax remains, so the match is unanchored). -/
theorem processModifier_regex_contains_spec :
    processModifier "regex" (.vStr "/ab+c/i") = .ok (directive "ab+c" "i") ∧
    processModifier "regex" (.vStr "plain") = .ok (directive "plain" "") ∧
    (∀ s : String, processModifier "contains" (.vStr s)
      = .ok (directive (escapeRegExp s) "")) ∧
    (∀ s : String, literalOfPattern (escapeRegExp s).data = some s.data) :=
  ⟨rfl, rfl, fun _ => rfl, fun s => literalOfPattern_escapeChars s.data⟩

/-- C7: the socket `save`, `find` and `update` handlers emit their
success on `api.{collection}.{verb}.response` and their failure on
`api.{collection}.{verb}.error`, but the `delete` handler emits
`api.{collection}.update.response` in *both* continuations (source
lines 724 and 730), never `api.{collection}.delete.response` or
`.delete.error` as the claimed channel pattern requires. -/
theorem socketDelete_emits_update_response :
    (∀ (c : String) (document e : JsVal),
      (socketSaveEmit c (.ok document)).1 = "api." ++ c ++ ".save.response" ∧
      (socketSaveEmit c (.error e)).1 = "api." ++ c ++ ".save.error") ∧
    (∀ (c : String) (docs meta e : JsVal),
      (socketFindEmit c (.ok (docs, meta))).1 = "api." ++ c ++ ".find.response" ∧
      (socketFindEmit c (.error e)).1 = "api." ++ c ++ ".find.error") ∧
    (∀ (c : String) (update e : JsVal),
      (socketUpdateEmit c (.ok update)).1 = "api." ++ c ++ ".update.response" ∧
      (socketUpdateEmit c (.error e)).1 = "api." ++ c ++ ".update.error") ∧
    ((socketDeleteEmit "samples" (.ok (.vNum 1))).1 = "api.samples.update.response" ∧
      (socketDeleteEmit "samples" (.error (.vStr "boom"))).1 = "api.samples.update.response" ∧
      "api.samples.update.response" ≠ "api.samples.delete.response" ∧
      "api.samples.update.response" ≠ "api.samples.delete.error") :=
  ⟨fun _ _ _ => ⟨rfl, rfl⟩, fun _ _ _ _ => ⟨rfl, rfl⟩, fun _ _ _ => ⟨rfl, rfl⟩,
    rfl, rfl, by decide, by decide⟩

/-- C8 (counterexample): the compiler is not pure with respect to the
caller's data.  The socket `save` handler passes the event payload
itself to `buildQueryFromParams`, which mutates it in place and returns
it, so after the handler builds its document the caller's payload
`{other: "y"}` has become `{}` (the non-whitelisted key was deleted from
the caller-owned object). -/
theorem saveDocument_mutates_caller_params :
    saveDocumentParamsAfter 100 (.vObj (.cons "other" (.vStr "y") .nil)) ["email"]
      = .ok (.vObj .nil) ∧
    (JsVal.vObj .nil) ≠ .vObj (.cons "other" (.vStr "y") .nil) :=
  ⟨rfl, by decide⟩

/-- C8 (amended): `buildQueryFromParams` mutates the object passed to it
and returns it, so its return value is the post-call state of its
argument.  The socket `save` handler passes the caller's payload
directly, and the REST create handler merges `req.body` into the
`req.query` object itself (`_.extend(req.query, req.body)`) before
compiling it in place; in both cases the caller-owned object is changed
whenever compilation rewrites or drops a key.  Here `req.query`
`{other: "y"}` ends up as `{email: "a"}` after the handler runs with
body `{email: "a"}` and whitelist `[email]`. -/
theorem createDocument_mutates_request_query :
    createDocumentQueryAfter 100 (.cons "other" (.vStr "y") .nil)
        (.cons "email" (.vStr "a") .nil) ["email"]
      = .ok (.vObj (.cons "email" (.vStr "a") .nil)) ∧
    (JsVal.vObj (.cons "email" (.vStr "a") .nil))
      ≠ .vObj (.cons "other" (.vStr "y") .nil) :=
  ⟨rfl, by decide⟩

/-- C9: every bind call merges its overrides into the shared
module-level configuration object itself, so an override supplied to one
bind call is still in effect for a later bind call that does not
override that setting. -/
theorem config_overrides_persist_across_bind_calls
    (cfg : List (String × JsVal)) (s : String) (v : JsVal)
    (ov2 : List (String × JsVal)) (h : s ∉ ov2.map Prod.fst) :
    assocGet (bindMergeConfig (bindMergeConfig cfg [(s, v)]) ov2) s = some v := by
  unfold bindMergeConfig
  rw [assocGet_uExtend_not_mem ov2 _ s h]
  exact assocGet_assocSet_self cfg s v

/-- C9 (witness): a `queryLimit` override from a first bind call is
still seen by a second bind call that only overrides `baseURL`. -/
theorem config_overrides_persist_witness :
    assocGet (bindMergeConfig
        (bindMergeConfig [("queryLimit", JsVal.vNum 0)] [("queryLimit", JsVal.vNum 50)])
        [("baseURL", JsVal.vStr "/v2/")]) "queryLimit"
      = some (JsVal.vNum 50) :=
  config_overrides_persist_across_bind_calls
    [("queryLimit", JsVal.vNum 0)] "queryLimit" (JsVal.vNum 50)
    [("baseURL", JsVal.vStr "/v2/")] (by decide)

/-- C10: compilation is partial on modifier-suffixed keys with
non-string values: compiling `{"email.contains": 5}` throws a
`TypeError`, because the `contains` branch of `processModifier` calls
`escapeRegExp`, which invokes `.replace` on the value unconditionally
(numbers have no `.replace`). -/
theorem contains_modifier_throws_on_number :
    buildQueryFromParams 100 (.vObj (.cons "email.contains" (.vNum 5) .nil)) ["email"] ""
      = .error .typeError ∧
    processModifier "contains" (.vNum 5) = .error .typeError :=
  ⟨rfl, rfl⟩
